import Mathlib

/-!
Verification development for the markov-model repository.

The source, `src/markov-model.js`, implements an order-k Markov chain over
interned symbols: a constructor `Markov(depth)`, training (`train`),
sampling-based generation (`generate`), likelihood scoring (`score`) and a
JSON snapshot (`toJSON` / `fromJSON`).

Shallow embedding conventions:
* JS objects used as string-keyed maps (`this.counts`, `this.probabilities`,
  `this.symbolMap`, and each per-prefix counter object) are modelled as
  association lists in property-insertion order; property writes keep the
  position of an existing key and append a new key, exactly as JS engines do.
* A per-prefix counter object `{_sum: n, "3": c3, "7": c7, ...}` is modelled
  as `ChainEntry` with the reserved `_sum` field apart from the suffix-count
  list; its `for (var sfx in ...)` enumeration order (ES2015 OwnPropertyKeys:
  integer-like keys ascending, then string keys in insertion order, so `_sum`
  last among the ones training creates) is `enumEntry`.
* JS numbers are modelled as `ℚ`; `Math.random()` is an explicit stream
  `rands : Nat → ℚ` consumed one value per `genSuffix` call.  The one place
  where the code divides by a possibly-zero length (`score` of `[]`) returns
  a `JsNum` that can be `nan` or `inf`, mirroring IEEE division by zero.
* A thrown TypeError (reading a property of `undefined`, as `genSuffix` does
  for an unseen prefix) is the `GenResult.fault` / `Option.none` outcome.
* The `while` loop of `generate` is modelled with an explicit step budget
  (`fuel`); `GenResult.outOfFuel` marks budget exhaustion, and
  `genLoop_no_outOfFuel` proves the budget used by `generate` is never
  exhausted, so the embedded loop terminates exactly like the JS loop.
* The functional helpers (`compose`, `curry`, `map`) of the source only chain
  the pipeline stages; the embedding inlines them as straight-line code.
-/

namespace MarkovModel

/-- Association-list read, first match wins: JS `obj[k]`, `undefined ↦ none`. -/
def getAssoc {κ α : Type} [DecidableEq κ] : List (κ × α) → κ → Option α
  | [], _ => none
  | (k', v') :: t, k => if k' = k then some v' else getAssoc t k

/-- Association-list write: JS `obj[k] = v`.  An existing key keeps its
position (first occurrence is overwritten), a new key is appended, matching
JS property-insertion order. -/
def setAssoc {κ α : Type} [DecidableEq κ] : List (κ × α) → κ → α → List (κ × α)
  | [], k, v => [(k, v)]
  | (k', v') :: t, k, v => if k' = k then (k, v) :: t else (k', v') :: setAssoc t k v

/-- The values that can appear as a sampled "suffix" in the probability index
and in `generate`'s state window.  `updateProbabilities` enumerates the keys
of a counter object, so besides genuine suffix indexes (`idx n`, the JS
numeral string) the bookkeeping key `"_sum"` (`sumKey`) can appear; `undef`
stands for JS `undefined` (which `Array.prototype.join` renders as `""`). -/
inductive Cell where
  | idx (n : Nat)
  | sumKey
  | undef
deriving DecidableEq

/-- One per-prefix counter object `this.counts[prefix]`: created by
`countPair` as `{_sum: 0}` and then extended with `suffix ↦ count` properties.
`entries` keys are `some n` for the numeral property `n` and `none` for the
property named `"undefined"` (only reachable on un-interned input). -/
structure ChainEntry where
  _sum : Nat
  entries : List (Option Nat × Nat)
deriving DecidableEq

abbrev Counts := List (String × ChainEntry)

abbrev ProbMap := List (String × List (ℚ × Cell))

/-- The `Markov` object: the fields assigned in the constructor, plus the
`_score` / `_scoreFactor` scratch properties that `score` creates on first
use (hence `Option`, `none` = not yet assigned). -/
structure Markov where
  depth : Nat
  counts : Counts
  symbols : List String
  separator : String
  symbolMap : List (String × Nat)
  prePadding : List String
  postPadding : List String
  probabilities : Option ProbMap
  _score : Option ℚ
  _scoreFactor : Option ℚ
deriving DecidableEq

/-- The constructor body after the `depth = depth || 1` coercion, for a
non-negative depth (JS `Array(depth)` would throw below 0).
`Array(depth).join(",").split(",")` yields `depth` empty strings for
`depth ≥ 1` and the single-element list `[""]` for `depth = 0` (the
constructor itself never passes 0 because of `|| 1`). -/
def markovNewNat (depth : Nat) : Markov :=
  { depth := depth
    counts := []
    symbols := [""]
    separator := ","
    symbolMap := [("", 0)]
    prePadding := if depth = 0 then [""] else List.replicate depth ""
    postPadding := [""]
    probabilities := none
    _score := none
    _scoreFactor := none }

/-- The constructor `Markov(depth)`.  `depth = depth || 1` turns 0 (and an
omitted argument) into 1; a negative depth then reaches `Array(depth)`,
which throws a RangeError (`none`). -/
def markovNew (depth : Int) : Option Markov :=
  let d := if depth = 0 then 1 else depth
  if d < 0 then none else some (markovNewNat d.toNat)

/-- `padInput`: prepend the depth-sized boundary padding and append one
boundary symbol. -/
def padInput (M : Markov) (xs : List String) : List String :=
  M.prePadding ++ xs ++ M.postPadding

/-- `symbolToIndex`: `this.symbolMap[x]`, `undefined` for unseen symbols. -/
def symbolToIndex (M : Markov) (x : String) : Option Nat :=
  getAssoc M.symbolMap x

/-- `addSymbol`: intern a symbol.  `this.symbols.push(x) - 1` is the old
length of `symbols`, so a new symbol gets the next dense index. -/
def addSymbol (M : Markov) (x : String) : Markov :=
  match getAssoc M.symbolMap x with
  | some _ => M
  | none =>
      { M with
        symbols := M.symbols ++ [x]
        symbolMap := setAssoc M.symbolMap x M.symbols.length }

/-- The `map(addSymbol)` stage of `train`: intern every input symbol,
left to right. -/
def internAll (M : Markov) (xs : List String) : Markov :=
  xs.foldl addSymbol M

/-- Render one index for a prefix-key join: JS `Array.prototype.join` turns
a number into its numeral and `undefined` into the empty string. -/
def optKeyStr : Option Nat → String
  | some n => toString n
  | none => ""

/-- The string prefix key `xs.slice(i, i + depth).join(this.separator)`
of the `prefix` helper, for an already-sliced window. -/
def joinIdx (sep : String) (l : List (Option Nat)) : String :=
  String.intercalate sep (l.map optKeyStr)

/-- `padInput` then `map(symbolToIndex)`: the indexed padded input used by
both `train` (post-intern, all lookups succeed) and `score` (unseen symbols
stay `none`). -/
def indexedInput (M : Markov) (xs : List String) : List (Option Nat) :=
  (padInput M xs).map (symbolToIndex M)

/-- `forEachPrefixPair`, reified as the list of (prefix key, following
symbol) pairs it feeds to its callback: for `i < xs.length - depth` the pair
is `(xs.slice(i, i+depth).join(sep), xs[i + depth])`. -/
def windowPairs (depth : Nat) (sep : String) (idxs : List (Option Nat)) :
    List (String × Option Nat) :=
  (List.range (idxs.length - depth)).map
    (fun i => (joinIdx sep ((idxs.drop i).take depth), idxs.getD (i + depth) none))

/-- `countPair`: create the prefix entry as `{_sum: 0}` on first use, then
increment the suffix count and the `_sum` total. -/
def countPair (counts : Counts) (pair : String × Option Nat) : Counts :=
  let e := (getAssoc counts pair.1).getD ⟨0, []⟩
  let c := (getAssoc e.entries pair.2).getD 0
  setAssoc counts pair.1 ⟨e._sum + 1, setAssoc e.entries pair.2 (c + 1)⟩

/-- `resetProbabilities`: training invalidates the probability index. -/
def resetProbabilities (M : Markov) : Markov :=
  { M with probabilities := none }

/-- The window pairs a call `train(xs)` feeds to `countPair`: computed on the
model *after* the `map(addSymbol)` stage has interned `xs`. -/
def trainPairs (M : Markov) (xs : List String) : List (String × Option Nat) :=
  let M1 := internAll M xs
  windowPairs M1.depth M1.separator (indexedInput M1 xs)

/-- `train`: `compose([map(addSymbol), padInput, map(symbolToIndex),
forEachPrefixPair(countPair), resetProbabilities])`. -/
def train (M : Markov) (xs : List String) : Markov :=
  let M1 := internAll M xs
  resetProbabilities
    { M1 with counts := (trainPairs M xs).foldl countPair M1.counts }

/-- The suffix-count pairs of a counter object whose keys are numerals,
i.e. real suffix indexes. -/
def numEntries (e : ChainEntry) : List (Nat × Nat) :=
  e.entries.filterMap (fun p =>
    match p.1 with
    | some n => some (n, p.2)
    | none => none)

/-- The `"undefined"`-keyed pairs of a counter object (never created by
training, which only counts interned indexes). -/
def undefEntries (e : ChainEntry) : List (Cell × Nat) :=
  e.entries.filterMap (fun p =>
    match p.1 with
    | some _ => none
    | none => some (Cell.undef, p.2))

/-- `for (var sfx in this.counts[pfx])` enumeration of one counter object:
integer-like keys ascending, then string keys in insertion order — `_sum`
was created first (`{_sum: 0}`), so it precedes any `"undefined"` key. -/
def enumEntry (e : ChainEntry) : List (Cell × Nat) :=
  ((numEntries e).insertionSort (fun a b => a.1 ≤ b.1)).map
      (fun p => (Cell.idx p.1, p.2))
    ++ [(Cell.sumKey, e._sum)] ++ undefEntries e

/-- The running-sum loop of `updateProbabilities`:
`upper = upper + count / _sum; probs.push([upper, sfx])`. -/
def cumProbs (total : Nat) : ℚ → List (Cell × Nat) → List (ℚ × Cell)
  | _, [] => []
  | upper, kc :: rest =>
      let u := upper + (kc.2 : ℚ) / (total : ℚ)
      (u, kc.1) :: cumProbs total u rest

/-- The cumulative list `updateProbabilities` builds for one prefix. -/
def buildProbs (e : ChainEntry) : List (ℚ × Cell) :=
  cumProbs e._sum 0 (enumEntry e)

/-- `updateProbabilities`: rebuild `this.probabilities` from `this.counts`.
The probability index is only ever read back through key lookup, so the
enumeration order of the outer `for (var pfx in this.counts)` does not
matter; the embedding keeps insertion order. -/
def updateProbabilities (M : Markov) : Markov :=
  { M with probabilities := some (M.counts.map (fun p => (p.1, buildProbs p.2))) }

/-- Render a window-state element for `pfx.join(this.separator)` inside
`generate`: numbers (and numeral strings) print as numerals, the `"_sum"`
string as itself, `undefined` as the empty string. -/
def cellStr : Cell → String
  | Cell.idx n => toString n
  | Cell.sumKey => "_sum"
  | Cell.undef => ""

/-- `pfx.join(this.separator)` for `generate`'s state window. -/
def joinCells (sep : String) (l : List Cell) : String :=
  String.intercalate sep (l.map cellStr)

/-- `genSuffix(pfx)`: scan the cumulative list for the first entry whose
bound is ≥ the random draw and return its key.  Reading
`this.probabilities[pfx][i]` of a missing prefix, or `[i][1]` past the end of
the list, throws a TypeError: `none`. -/
def genSuffix (probs : ProbMap) (pfx : String) (rand : ℚ) : Option Cell :=
  match getAssoc probs pfx with
  | none => none
  | some l => (l.find? (fun e => decide (rand ≤ e.1))).map (fun e => e.2)

/-- The symbol pushed by `string.push(this.symbols[sfx])`: out-of-range and
non-numeral keys read as `undefined` (`none`). -/
def cellSymbol (symbols : List String) : Cell → Option String
  | Cell.idx n => symbols.get? n
  | _ => none

/-- Outcome of `generate`'s while-loop: the produced output together with the
final value of the `zCount` boundary-draw counter, a thrown TypeError
(`fault`), or exhaustion of the explicit step budget (`outOfFuel`, proved
unreachable for the budget `generate` passes). -/
inductive GenResult where
  | ok (string : List (Option String)) (zCount : Nat)
  | fault
  | outOfFuel
deriving DecidableEq

/-- Does the JS comparison `sfx != 0` say "boundary"?  Only the index 0 (the
numeral string `"0"` loosely equals the number 0); `"_sum"` and `undefined`
are `!= 0`. -/
def cellIsZero : Cell → Bool
  | Cell.idx 0 => true
  | _ => false

/-- The while-loop of `generate`, one constructor application per iteration:
state is the output so far, the depth-sized window `pfx`, the last sampled
suffix `sfx`, the absorbing counter `zCount` and the index `k` of the next
random draw. -/
def genLoop (probs : ProbMap) (symbols : List String) (sep : String)
    (rands : Nat → ℚ) (minLength maxLength : Nat) :
    Nat → List (Option String) → List Cell → Cell → Nat → Nat → GenResult
  | 0, _, _, _, _, _ => GenResult.outOfFuel
  | fuel + 1, string, pfx, sfx, zCount, k =>
    if (string.length < maxLength ∧ ¬cellIsZero sfx) ∨ string.length < minLength then
      if ¬cellIsZero sfx then
        let string' := string ++ [cellSymbol symbols sfx]
        let pfx' := (pfx ++ [sfx]).drop 1
        match genSuffix probs (joinCells sep pfx') (rands k) with
        | none => GenResult.fault
        | some sfx' =>
            genLoop probs symbols sep rands minLength maxLength
              fuel string' pfx' sfx' zCount (k + 1)
      else
        let z' := zCount + 1
        if 15 < z' then GenResult.ok string z'
        else
          match genSuffix probs (joinCells sep pfx) (rands k) with
          | none => GenResult.fault
          | some sfx' =>
              genLoop probs symbols sep rands minLength maxLength
                fuel string pfx sfx' z' (k + 1)
    else GenResult.ok string zCount

/-- `var pfx = map.call(this, symbolToIndex, this.prePadding)`: the seed
state window (index 0 cells for a constructed model; `undefined` cells only
if the boundary symbol were missing from the table). -/
def genPfx0 (M1 : Markov) : List Cell :=
  M1.prePadding.map (fun x =>
    match symbolToIndex M1 x with
    | some n => Cell.idx n
    | none => Cell.undef)

/-- The body of `generate` after the probability-index rebuild and the
`maxLength` default: draw the first suffix (`var sfx = genSuffix(...)`,
which throws — `fault` — on an untrained model) and run the while loop.
The step budget `max minLength maxLength + 17` strictly exceeds the loop's
decreasing measure (see `genLoop_no_outOfFuel`), so `outOfFuel` is
unreachable. -/
def genStart (M1 : Markov) (rands : Nat → ℚ) (minLength maxLength : Nat) :
    Markov × GenResult :=
  match genSuffix (M1.probabilities.getD [])
      (joinCells M1.separator (genPfx0 M1)) (rands 0) with
  | none => (M1, GenResult.fault)
  | some sfx =>
      (M1, genLoop (M1.probabilities.getD []) M1.symbols M1.separator rands
        minLength maxLength (max minLength maxLength + 17) [] (genPfx0 M1) sfx 0 1)

/-- `generate(minLength, maxLength)`: rebuild the probability index if it is
absent, apply the `maxLength = maxLength || minLength` default, and run the
sampling loop. -/
def generate (M : Markov) (rands : Nat → ℚ) (minLength maxLength0 : Nat) :
    Markov × GenResult :=
  genStart (if M.probabilities = none then updateProbabilities M else M) rands
    minLength (if maxLength0 = 0 then minLength else maxLength0)

/-- A JS number that can be the result of `x / y`: a finite rational, or the
IEEE exceptional values produced by division by zero. -/
inductive JsNum where
  | num (q : ℚ)
  | nan
  | inf
  | ninf
deriving DecidableEq

/-- Is a `JsNum` an ordinary (finite) number? -/
def JsNum.isNumB : JsNum → Bool
  | JsNum.num _ => true
  | _ => false

/-- JS division as used in `score`'s final stage: `0/0 = NaN`,
`±x/0 = ±Infinity`, otherwise exact division. -/
def jsDiv (a b : ℚ) : JsNum :=
  if b = 0 then
    if a = 0 then JsNum.nan else if 0 < a then JsNum.inf else JsNum.ninf
  else JsNum.num (a / b)

/-- One `score` summand: `counts[pfx] && counts[pfx][sfx]` guards the
addition of `counts[pfx][sfx] / counts[pfx]._sum` (a stored count of 0 would
be falsy, like a missing key). -/
def scoreTerm (counts : Counts) (p : String × Option Nat) : ℚ :=
  match getAssoc counts p.1 with
  | none => 0
  | some e =>
      match getAssoc e.entries p.2 with
      | none => 0
      | some c => if c = 0 then 0 else (c : ℚ) / (e._sum : ℚ)

/-- The value accumulated into `this._score` over all window pairs. -/
def scoreAcc (M : Markov) (xs : List String) : ℚ :=
  ((windowPairs M.depth M.separator (indexedInput M xs)).map (scoreTerm M.counts)).sum

/-- `score`: record the scratch accumulators on the object (the pipeline's
first stage sets `_score = 0` and `_scoreFactor = symbols.length`; the window
stage sums into `_score`) and return `this._score / this._scoreFactor`. -/
def score (M : Markov) (xs : List String) : Markov × JsNum :=
  let acc := scoreAcc M xs
  ({ M with _score := some acc, _scoreFactor := some (xs.length : ℚ) },
    jsDiv acc (xs.length : ℚ))

/-- The object `toJSON` returns (what `JSON.stringify` would serialize). -/
structure Snapshot where
  depth : Nat
  symbols : List String
  counts : Counts
deriving DecidableEq

/-- `toJSON`: depth, symbols, counts. -/
def toJSON (M : Markov) : Snapshot :=
  ⟨M.depth, M.symbols, M.counts⟩

/-- `fromJSON`: run the constructor on the stored depth (`new Markov(obj.depth)`,
so `depth || 1` applies again), re-intern the stored symbol list with
`map.call(M, addSymbol, obj.symbols)`, and install the stored counts.  The
probability index stays absent. -/
def fromJSON (s : Snapshot) : Markov :=
  let M := markovNewNat (if s.depth = 0 then 1 else s.depth)
  let M1 := s.symbols.foldl addSymbol M
  { M1 with counts := s.counts }

/-! ## Derived observers and invariants used to state the claims -/

/-- The stored count of suffix `s` after prefix `k` (0 for a missing key),
i.e. `this.counts[k][s] || 0`. -/
def getCount (counts : Counts) (k : String) (s : Option Nat) : Nat :=
  match getAssoc counts k with
  | none => 0
  | some e => (getAssoc e.entries s).getD 0

/-- The stored per-prefix total, i.e. `this.counts[k]._sum || 0`. -/
def getSum (counts : Counts) (k : String) : Nat :=
  match getAssoc counts k with
  | none => 0
  | some e => e._sum

/-- The symbol table the constructor plus a sequence of `addSymbol` calls
produces: each list position paired with its index, starting at `i`. -/
def enumMapFrom (i : Nat) : List String → List (String × Nat)
  | [] => []
  | x :: t => (x, i) :: enumMapFrom (i + 1) t

/-- `symbolMap` as a function of `symbols`: position ↦ index from 0. -/
def enumMap (l : List String) : List (String × Nat) :=
  enumMapFrom 0 l

/-- Well-formedness of one counter object, as `countPair` maintains it:
at least one suffix has been counted, every suffix key is a genuine interned
index (never the JS `"undefined"` property) with a positive count, and
`_sum` is the total of the suffix counts. -/
def WfEntry (e : ChainEntry) : Prop :=
  e.entries ≠ [] ∧ (∀ p ∈ e.entries, p.1 ≠ none ∧ 1 ≤ p.2) ∧
  e._sum = (e.entries.map (fun p => p.2)).sum

/-- Well-formedness of a model: the constructor-derived fields have their
constructed values, index 0 is the boundary symbol, the symbol table is the
first-seen-order enumeration of the (duplicate-free) symbol list, and every
counter object is well formed. -/
def Wf (M : Markov) : Prop :=
  1 ≤ M.depth ∧ M.separator = "," ∧
  M.prePadding = List.replicate M.depth "" ∧ M.postPadding = [""] ∧
  M.symbols.get? 0 = some "" ∧ M.symbols.Nodup ∧
  M.symbolMap = enumMap M.symbols ∧
  ∀ p ∈ M.counts, WfEntry p.2

instance (e : ChainEntry) : Decidable (WfEntry e) := by
  unfold WfEntry; exact inferInstance

instance (M : Markov) : Decidable (Wf M) := by
  unfold Wf; exact inferInstance

/-- The model states reachable through the public interface: construction,
`train`, `score`, `generate`, and a serialize/deserialize round trip. -/
inductive Reachable : Markov → Prop where
  | construct (d : Int) (M : Markov) : markovNew d = some M → Reachable M
  | train (M : Markov) (xs : List String) : Reachable M → Reachable (train M xs)
  | score (M : Markov) (xs : List String) : Reachable M → Reachable (score M xs).1
  | generate (M : Markov) (rands : Nat → ℚ) (minL maxL : Nat) :
      Reachable M → Reachable (generate M rands minL maxL).1
  | roundtrip (M : Markov) : Reachable M → Reachable (fromJSON (toJSON M))

/-- Equality of everything except the probability-index cache and the
`_score` / `_scoreFactor` scratch accumulators. -/
def CoreEq (M₁ M₂ : Markov) : Prop :=
  M₁.depth = M₂.depth ∧ M₁.counts = M₂.counts ∧ M₁.symbols = M₂.symbols ∧
  M₁.separator = M₂.separator ∧ M₁.symbolMap = M₂.symbolMap ∧
  M₁.prePadding = M₂.prePadding ∧ M₁.postPadding = M₂.postPadding

/-- Claim C1 as stated: after a rebuild, every prefix present in the Chain
Counter has a cumulative list that pairs masses only with genuine suffix
indexes (never the `_sum` bookkeeping field), is strictly increasing, and
whose final cumulative mass is 1 within 1e-9. -/
def C1Prop (M : Markov) : Prop :=
  ∀ p ∈ M.counts, ∃ l,
    getAssoc ((updateProbabilities M).probabilities.getD []) p.1 = some l ∧
    (∀ q ∈ l, q.2 ≠ Cell.sumKey) ∧
    List.Chain' (fun a b => a.1 < b.1) l ∧
    ∃ q, l.getLast? = some q ∧ |q.1 - 1| ≤ 1 / 1000000000

/-! ## Association-list lemmas -/

theorem getAssoc_setAssoc_self {κ α : Type} [DecidableEq κ]
    (l : List (κ × α)) (k : κ) (v : α) : getAssoc (setAssoc l k v) k = some v := by
  induction l with
  | nil => simp [getAssoc, setAssoc]
  | cons h t ih =>
      by_cases hk : h.1 = k
      · simp [setAssoc, getAssoc, hk]
      · simp [setAssoc, getAssoc, hk, ih]

theorem getAssoc_setAssoc_ne {κ α : Type} [DecidableEq κ]
    (l : List (κ × α)) (k k' : κ) (v : α) (h : k' ≠ k) :
    getAssoc (setAssoc l k v) k' = getAssoc l k' := by
  have h' : ¬k = k' := fun hkk => h hkk.symm
  induction l with
  | nil => simp [getAssoc, setAssoc, h']
  | cons hd t ih =>
      by_cases hk : hd.1 = k
      · simp [setAssoc, getAssoc, hk, h']
      · simp [setAssoc, getAssoc, hk, ih]

theorem setAssoc_of_absent {κ α : Type} [DecidableEq κ]
    (l : List (κ × α)) (k : κ) (v : α) (h : getAssoc l k = none) :
    setAssoc l k v = l ++ [(k, v)] := by
  induction l with
  | nil => simp [setAssoc]
  | cons hd t ih =>
      by_cases hk : hd.1 = k
      · simp [getAssoc, hk] at h
      · simp [getAssoc, hk] at h
        simp [setAssoc, hk, ih h]

theorem getAssoc_mem {κ α : Type} [DecidableEq κ]
    (l : List (κ × α)) (k : κ) (v : α) (h : getAssoc l k = some v) : (k, v) ∈ l := by
  induction l with
  | nil => simp [getAssoc] at h
  | cons hd t ih =>
      rcases hd with ⟨a, b⟩
      by_cases hk : a = k
      · subst hk
        simp [getAssoc] at h
        subst h
        exact List.mem_cons_self _ _
      · simp [getAssoc, hk] at h
        exact List.mem_cons_of_mem _ (ih h)

theorem mem_getAssoc_isSome {κ α : Type} [DecidableEq κ]
    (l : List (κ × α)) (p : κ × α) (h : p ∈ l) : ∃ v, getAssoc l p.1 = some v := by
  induction l with
  | nil => simp at h
  | cons hd t ih =>
      by_cases hk : hd.1 = p.1
      · exact ⟨hd.2, by simp [getAssoc, hk]⟩
      · rcases List.mem_cons.mp h with h' | h'
        · exact absurd (by rw [h']) hk
        · simpa [getAssoc, hk] using ih h'

theorem getAssoc_map_value {κ α β : Type} [DecidableEq κ]
    (f : α → β) (l : List (κ × α)) (k : κ) :
    getAssoc (l.map (fun p => (p.1, f p.2))) k = (getAssoc l k).map f := by
  induction l with
  | nil => simp [getAssoc]
  | cons hd t ih =>
      by_cases hk : hd.1 = k
      · simp [getAssoc, hk]
      · simp [getAssoc, hk, ih]

/-! ## Symbol-table lemmas -/

theorem enumMapFrom_append (i : Nat) (l : List String) (x : String) :
    enumMapFrom i (l ++ [x]) = enumMapFrom i l ++ [(x, i + l.length)] := by
  induction l generalizing i with
  | nil => simp [enumMapFrom]
  | cons hd t ih =>
      have h1 : i + 1 + t.length = i + (t.length + 1) := by omega
      simp only [List.cons_append, enumMapFrom, List.append_eq, ih, List.length_cons, h1]

theorem getAssoc_enumMapFrom_eq_none (i : Nat) (l : List String) (x : String) :
    getAssoc (enumMapFrom i l) x = none ↔ x ∉ l := by
  induction l generalizing i with
  | nil => simp [enumMapFrom, getAssoc]
  | cons hd t ih =>
      by_cases hk : hd = x
      · simp [enumMapFrom, getAssoc, hk]
      · have hx : ¬x = hd := fun h => hk h.symm
        simp only [enumMapFrom, getAssoc, if_neg hk]
        rw [ih]
        simp [List.mem_cons, hx]

/-! ## Effect of `countPair` on the stored counts -/

theorem getAssoc_entries_update (l : List (Option Nat × Nat)) (ps s : Option Nat) :
    (getAssoc (setAssoc l ps ((getAssoc l ps).getD 0 + 1)) s).getD 0
      = (getAssoc l s).getD 0 + (if ps = s then 1 else 0) := by
  by_cases hs : ps = s
  · subst hs
    simp [getAssoc_setAssoc_self]
  · rw [getAssoc_setAssoc_ne l ps s _ (fun h => hs h.symm)]
    simp [hs]

theorem getCount_countPair (counts : Counts) (p : String × Option Nat)
    (k : String) (s : Option Nat) :
    getCount (countPair counts p) k s
      = getCount counts k s + (if p = (k, s) then 1 else 0) := by
  rcases p with ⟨pk, ps⟩
  by_cases hk : pk = k
  · subst hk
    simp only [countPair, getCount, getAssoc_setAssoc_self, Prod.mk.injEq, true_and]
    cases hA : getAssoc counts pk with
    | none =>
        simpa [hA, getAssoc] using getAssoc_entries_update [] ps s
    | some e =>
        simpa [hA] using getAssoc_entries_update e.entries ps s
  · have hne : ¬(pk, ps) = (k, s) := by simp [hk]
    simp only [countPair, getCount,
      getAssoc_setAssoc_ne counts pk k _ (fun h => hk h.symm), hne, if_false, Nat.add_zero]

theorem getSum_countPair (counts : Counts) (p : String × Option Nat) (k : String) :
    getSum (countPair counts p) k = getSum counts k + (if p.1 = k then 1 else 0) := by
  rcases p with ⟨pk, ps⟩
  by_cases hk : pk = k
  · subst hk
    simp only [countPair, getSum, getAssoc_setAssoc_self]
    cases hA : getAssoc counts pk with
    | none => simp [hA]
    | some e => simp [hA]
  · simp only [countPair, getSum,
      getAssoc_setAssoc_ne counts pk k _ (fun h => hk h.symm), hk, if_false, Nat.add_zero]

theorem getCount_foldl (pairs : List (String × Option Nat)) :
    ∀ (counts : Counts) (k : String) (s : Option Nat),
    getCount (pairs.foldl countPair counts) k s
      = getCount counts k s + pairs.countP (fun p => decide (p = (k, s))) := by
  induction pairs with
  | nil => simp
  | cons hd t ih =>
      intro counts k s
      simp only [List.foldl_cons, ih, getCount_countPair, List.countP_cons]
      by_cases h : hd = (k, s) <;> simp [h] <;> omega

theorem getSum_foldl (pairs : List (String × Option Nat)) :
    ∀ (counts : Counts) (k : String),
    getSum (pairs.foldl countPair counts) k
      = getSum counts k + pairs.countP (fun p => decide (p.1 = k)) := by
  induction pairs with
  | nil => simp
  | cons hd t ih =>
      intro counts k
      simp only [List.foldl_cons, ih, getSum_countPair, List.countP_cons]
      by_cases h : hd.1 = k <;> simp [h] <;> omega

/-- `addSymbol` only touches `symbols` and `symbolMap`. -/
theorem addSymbol_proj (M : Markov) (x : String) :
    (addSymbol M x).depth = M.depth ∧ (addSymbol M x).counts = M.counts ∧
    (addSymbol M x).separator = M.separator ∧
    (addSymbol M x).prePadding = M.prePadding ∧
    (addSymbol M x).postPadding = M.postPadding ∧
    (addSymbol M x).probabilities = M.probabilities ∧
    (addSymbol M x)._score = M._score ∧
    (addSymbol M x)._scoreFactor = M._scoreFactor := by
  unfold addSymbol
  cases getAssoc M.symbolMap x <;>
    exact ⟨rfl, rfl, rfl, rfl, rfl, rfl, rfl, rfl⟩

/-- The interning stage only touches `symbols` and `symbolMap`. -/
theorem internAll_proj (M : Markov) (xs : List String) :
    (internAll M xs).depth = M.depth ∧ (internAll M xs).counts = M.counts ∧
    (internAll M xs).separator = M.separator ∧
    (internAll M xs).prePadding = M.prePadding ∧
    (internAll M xs).postPadding = M.postPadding ∧
    (internAll M xs).probabilities = M.probabilities ∧
    (internAll M xs)._score = M._score ∧
    (internAll M xs)._scoreFactor = M._scoreFactor := by
  induction xs generalizing M with
  | nil => exact ⟨rfl, rfl, rfl, rfl, rfl, rfl, rfl, rfl⟩
  | cons x t ih =>
      have h := ih (addSymbol M x)
      have ha := addSymbol_proj M x
      exact ⟨h.1.trans ha.1, h.2.1.trans ha.2.1, h.2.2.1.trans ha.2.2.1,
        h.2.2.2.1.trans ha.2.2.2.1, h.2.2.2.2.1.trans ha.2.2.2.2.1,
        h.2.2.2.2.2.1.trans ha.2.2.2.2.2.1,
        h.2.2.2.2.2.2.1.trans ha.2.2.2.2.2.2.1,
        h.2.2.2.2.2.2.2.trans ha.2.2.2.2.2.2.2⟩

/-- What `train` does to the Chain Counter: fold the window pairs with
`countPair` over the previous counts. -/
theorem train_counts (M : Markov) (xs : List String) :
    (train M xs).counts = (trainPairs M xs).foldl countPair M.counts := by
  simp only [train, resetProbabilities]
  rw [(internAll_proj M xs).2.1]

/-- C4: training is purely additive.  Training on `A` and then on `B` leaves
every suffix count equal to its previous value plus the number of window
pairs contributed by `A` (counted after `A`'s symbols are interned) plus the
number contributed by `B` (counted after both calls' interning), and the same
for every per-prefix total; in particular no suffix count or per-prefix total
is ever decreased or reset by `train`. -/
theorem C4_additive (M : Markov) (A B : List String) (k : String) (s : Option Nat) :
    (getCount (train (train M A) B).counts k s
      = getCount M.counts k s + (trainPairs M A).countP (fun p => decide (p = (k, s)))
        + (trainPairs (train M A) B).countP (fun p => decide (p = (k, s)))) ∧
    (getSum (train (train M A) B).counts k
      = getSum M.counts k + (trainPairs M A).countP (fun p => decide (p.1 = k))
        + (trainPairs (train M A) B).countP (fun p => decide (p.1 = k))) ∧
    getCount M.counts k s ≤ getCount (train M A).counts k s ∧
    getSum M.counts k ≤ getSum (train M A).counts k := by
  have h1 := train_counts M A
  have h2 := train_counts (train M A) B
  refine ⟨?_, ?_, ?_, ?_⟩
  · rw [h2, getCount_foldl, h1, getCount_foldl]
  · rw [h2, getSum_foldl, h1, getSum_foldl]
  · rw [h1, getCount_foldl]
    omega
  · rw [h1, getSum_foldl]
    omega

/-! ## Preservation of well-formedness -/

theorem setAssoc_ne_nil {κ α : Type} [DecidableEq κ] (l : List (κ × α)) (k : κ) (v : α) :
    setAssoc l k v ≠ [] := by
  cases l with
  | nil => simp [setAssoc]
  | cons hd t => by_cases hk : hd.1 = k <;> simp [setAssoc, hk]

theorem mem_setAssoc {κ α : Type} [DecidableEq κ] (l : List (κ × α)) (k : κ) (v : α)
    (p : κ × α) (hp : p ∈ setAssoc l k v) : p = (k, v) ∨ p ∈ l := by
  induction l with
  | nil => simpa [setAssoc] using hp
  | cons hd t ih =>
      by_cases hk : hd.1 = k
      · simp only [setAssoc, hk, if_true, List.mem_cons, eq_self_iff_true] at hp
        rcases hp with h | h
        · exact Or.inl h
        · exact Or.inr (List.mem_cons_of_mem _ h)
      · simp only [setAssoc, hk, if_false, List.mem_cons] at hp
        rcases hp with h | h
        · exact Or.inr (List.mem_cons.mpr (Or.inl h))
        · rcases ih h with h' | h'
          · exact Or.inl h'
          · exact Or.inr (List.mem_cons_of_mem _ h')

theorem sum_setAssoc {κ : Type} [DecidableEq κ] (l : List (κ × Nat)) (k : κ) :
    ((setAssoc l k ((getAssoc l k).getD 0 + 1)).map (fun p => p.2)).sum
      = (l.map (fun p => p.2)).sum + 1 := by
  induction l with
  | nil => simp [setAssoc, getAssoc]
  | cons hd t ih =>
      by_cases hk : hd.1 = k
      · simp only [setAssoc, getAssoc, hk, if_true, eq_self_iff_true, List.map_cons,
          List.sum_cons, Option.getD_some]
        omega
      · simp only [setAssoc, getAssoc, hk, if_false, List.map_cons, List.sum_cons] at ih ⊢
        omega

/-- `countPair`'s updated entry is well formed whenever the counted suffix is
a genuine index and the previous entry (if any) was well formed. -/
theorem wfEntry_update (E : ChainEntry) (ps : Option Nat) (hps : ps ≠ none)
    (hE : (E.entries = [] ∧ E._sum = 0) ∨ WfEntry E) :
    WfEntry ⟨E._sum + 1, setAssoc E.entries ps ((getAssoc E.entries ps).getD 0 + 1)⟩ := by
  refine ⟨setAssoc_ne_nil _ _ _, ?_, ?_⟩
  · intro p' hp'
    rcases mem_setAssoc _ _ _ _ hp' with h | h
    · rw [h]
      exact ⟨hps, Nat.succ_le_succ (Nat.zero_le _)⟩
    · rcases hE with ⟨he, _⟩ | hwf
      · rw [he] at h
        simp at h
      · exact hwf.2.1 p' h
  · show E._sum + 1 = _
    rw [sum_setAssoc]
    rcases hE with ⟨he, hs⟩ | hwf
    · rw [hs, he]
      simp
    · rw [hwf.2.2]

theorem wfCounts_countPair (counts : Counts) (q : String × Option Nat)
    (hq : q.2 ≠ none) (h : ∀ p ∈ counts, WfEntry p.2) :
    ∀ p ∈ countPair counts q, WfEntry p.2 := by
  rcases q with ⟨pk, ps⟩
  intro p hp
  simp only [countPair] at hp
  rcases mem_setAssoc _ _ _ _ hp with heq | hmem
  · cases hA : getAssoc counts pk with
    | none =>
        rw [hA] at heq
        simp only [Option.getD_none] at heq
        rw [heq]
        exact wfEntry_update ⟨0, []⟩ ps hq (Or.inl ⟨rfl, rfl⟩)
    | some e =>
        have hwf := h (pk, e) (getAssoc_mem _ _ _ hA)
        rw [hA] at heq
        simp only [Option.getD_some] at heq
        rw [heq]
        exact wfEntry_update e ps hq (Or.inr hwf)
  · exact h p hmem

theorem wfCounts_foldl (pairs : List (String × Option Nat)) :
    ∀ (counts : Counts), (∀ q ∈ pairs, q.2 ≠ none) → (∀ p ∈ counts, WfEntry p.2) →
    ∀ p ∈ pairs.foldl countPair counts, WfEntry p.2 := by
  induction pairs with
  | nil =>
      intro counts _ h
      simpa using h
  | cons hd t ih =>
      intro counts hq h
      simp only [List.foldl_cons]
      exact ih _ (fun q hq' => hq q (List.mem_cons_of_mem _ hq'))
        (wfCounts_countPair counts hd (hq hd (List.mem_cons_self _ _)) h)

theorem addSymbol_lookup_mono (M : Markov) (x y : String) (v : Nat)
    (h : getAssoc M.symbolMap y = some v) :
    getAssoc (addSymbol M x).symbolMap y = some v := by
  cases hA : getAssoc M.symbolMap x with
  | some _ => simpa [addSymbol, hA] using h
  | none =>
      have hxy : y ≠ x := by
        intro he
        rw [he, hA] at h
        cases h
      simp only [addSymbol, hA]
      rw [getAssoc_setAssoc_ne _ _ _ _ hxy]
      exact h

theorem internAll_lookup_mono (xs : List String) :
    ∀ (M : Markov) (y : String) (v : Nat), getAssoc M.symbolMap y = some v →
    getAssoc (internAll M xs).symbolMap y = some v := by
  induction xs with
  | nil =>
      intro M y v h
      exact h
  | cons x t ih =>
      intro M y v h
      exact ih _ _ _ (addSymbol_lookup_mono M x y v h)

theorem addSymbol_lookup_self (M : Markov) (x : String) :
    ∃ v, getAssoc (addSymbol M x).symbolMap x = some v := by
  cases hA : getAssoc M.symbolMap x with
  | some v => exact ⟨v, by simpa [addSymbol, hA] using hA⟩
  | none => exact ⟨M.symbols.length, by simp [addSymbol, hA, getAssoc_setAssoc_self]⟩

theorem internAll_lookup_mem (xs : List String) :
    ∀ (M : Markov) (y : String), y ∈ xs →
    ∃ v, getAssoc (internAll M xs).symbolMap y = some v := by
  induction xs with
  | nil =>
      intro M y h
      simp at h
  | cons x t ih =>
      intro M y hy
      rcases List.mem_cons.mp hy with h | h
      · subst h
        rcases addSymbol_lookup_self M y with ⟨v, hv⟩
        exact ⟨v, internAll_lookup_mono t _ _ _ hv⟩
      · exact ih _ _ h

theorem getAssoc_enumMapFrom_head (i : Nat) (l : List String) (x : String)
    (h : l.get? 0 = some x) : getAssoc (enumMapFrom i l) x = some i := by
  cases l with
  | nil => simp at h
  | cons a t =>
      simp only [List.get?_cons_zero, Option.some.injEq] at h
      subst h
      simp [enumMapFrom, getAssoc]

theorem addSymbol_symtab (M : Markov) (x : String)
    (h5 : M.symbols.get? 0 = some "") (h6 : M.symbols.Nodup)
    (h7 : M.symbolMap = enumMap M.symbols) :
    (addSymbol M x).symbols.get? 0 = some "" ∧ (addSymbol M x).symbols.Nodup ∧
    (addSymbol M x).symbolMap = enumMap (addSymbol M x).symbols := by
  cases hA : getAssoc M.symbolMap x with
  | some v =>
      simp only [addSymbol, hA]
      exact ⟨h5, h6, h7⟩
  | none =>
      have hx : x ∉ M.symbols := by
        rw [h7] at hA
        exact (getAssoc_enumMapFrom_eq_none 0 M.symbols x).mp hA
      have hlen : 0 < M.symbols.length := by
        cases hs : M.symbols with
        | nil =>
            rw [hs] at h5
            simp at h5
        | cons a t => simp
      refine ⟨?_, ?_, ?_⟩
      · simp only [addSymbol, hA]
        rw [List.get?_append hlen]
        exact h5
      · simp only [addSymbol, hA]
        rw [List.nodup_append]
        refine ⟨h6, List.nodup_singleton x, fun a ha hax => ?_⟩
        rw [List.mem_singleton] at hax
        subst hax
        exact hx ha
      · simp only [addSymbol, hA]
        rw [setAssoc_of_absent _ _ _ hA, h7]
        show enumMap M.symbols ++ [(x, M.symbols.length)] = enumMap (M.symbols ++ [x])
        rw [enumMap, enumMap, enumMapFrom_append]
        simp

theorem internAll_symtab (xs : List String) :
    ∀ (M : Markov), M.symbols.get? 0 = some "" → M.symbols.Nodup →
    M.symbolMap = enumMap M.symbols →
    (internAll M xs).symbols.get? 0 = some "" ∧ (internAll M xs).symbols.Nodup ∧
    (internAll M xs).symbolMap = enumMap (internAll M xs).symbols := by
  induction xs with
  | nil =>
      intro M h5 h6 h7
      exact ⟨h5, h6, h7⟩
  | cons x t ih =>
      intro M h5 h6 h7
      obtain ⟨a5, a6, a7⟩ := addSymbol_symtab M x h5 h6 h7
      exact ih _ a5 a6 a7

theorem windowPairs_snd_mem (depth : Nat) (sep : String) (idxs : List (Option Nat)) :
    ∀ q ∈ windowPairs depth sep idxs, q.2 ∈ idxs := by
  intro q hq
  simp only [windowPairs, List.mem_map, List.mem_range] at hq
  obtain ⟨i, hi, rfl⟩ := hq
  have hlt : i + depth < idxs.length := by omega
  simp only [List.getD_eq_getElem?_getD, List.getElem?_eq_getElem hlt, Option.getD_some]
  exact List.getElem_mem hlt

/-- Post-intern, every element of the indexed padded training input is a
genuine index (all lookups succeed). -/
theorem indexedInput_ne_none (M : Markov) (xs : List String)
    (h5 : M.symbols.get? 0 = some "") (h6 : M.symbols.Nodup)
    (h7 : M.symbolMap = enumMap M.symbols)
    (hpre : ∀ y ∈ M.prePadding, y = "") (hpost : ∀ y ∈ M.postPadding, y = "") :
    ∀ v ∈ indexedInput (internAll M xs) xs, v ≠ none := by
  intro v hv
  simp only [indexedInput, List.mem_map] at hv
  obtain ⟨y, hy, rfl⟩ := hv
  obtain ⟨a5, a6, a7⟩ := internAll_symtab xs M h5 h6 h7
  have proj := internAll_proj M xs
  have hempty : ∃ n, getAssoc (internAll M xs).symbolMap "" = some n := by
    refine ⟨0, ?_⟩
    rw [a7]
    exact getAssoc_enumMapFrom_head 0 _ _ a5
  simp only [padInput, List.mem_append] at hy
  rcases hy with (hy | hy) | hy
  · rw [proj.2.2.2.1] at hy
    obtain ⟨n, hn⟩ := hempty
    rw [hpre y hy] at *
    simp [symbolToIndex, hn]
  · obtain ⟨n, hn⟩ := internAll_lookup_mem xs M y hy
    simp [symbolToIndex, hn]
  · rw [proj.2.2.2.2.1] at hy
    obtain ⟨n, hn⟩ := hempty
    rw [hpost y hy] at *
    simp [symbolToIndex, hn]

theorem trainPairs_snd_ne_none (M : Markov) (xs : List String)
    (h5 : M.symbols.get? 0 = some "") (h6 : M.symbols.Nodup)
    (h7 : M.symbolMap = enumMap M.symbols)
    (hpre : ∀ y ∈ M.prePadding, y = "") (hpost : ∀ y ∈ M.postPadding, y = "") :
    ∀ q ∈ trainPairs M xs, q.2 ≠ none := by
  intro q hq
  have hmem := windowPairs_snd_mem (internAll M xs).depth (internAll M xs).separator
    (indexedInput (internAll M xs) xs) q hq
  exact indexedInput_ne_none M xs h5 h6 h7 hpre hpost q.2 hmem

/-- The projections of `train` that do not involve the Chain Counter. -/
theorem train_proj (M : Markov) (xs : List String) :
    (train M xs).depth = M.depth ∧ (train M xs).separator = M.separator ∧
    (train M xs).prePadding = M.prePadding ∧ (train M xs).postPadding = M.postPadding ∧
    (train M xs).symbols = (internAll M xs).symbols ∧
    (train M xs).symbolMap = (internAll M xs).symbolMap ∧
    (train M xs).probabilities = none := by
  have proj := internAll_proj M xs
  exact ⟨proj.1, proj.2.2.1, proj.2.2.2.1, proj.2.2.2.2.1, rfl, rfl, rfl⟩

/-- The constructor's output is well formed for any positive depth. -/
theorem wf_markovNewNat (d : Nat) (hd : 1 ≤ d) : Wf (markovNewNat d) := by
  have hne : ¬d = 0 := by omega
  refine ⟨hd, rfl, ?_, rfl, rfl, by simp [markovNewNat], rfl, by simp [markovNewNat]⟩
  simp [markovNewNat, hne]

/-- `train` preserves well-formedness. -/
theorem wf_train (M : Markov) (xs : List String) (h : Wf M) : Wf (train M xs) := by
  obtain ⟨h1, h2, h3, h4, h5, h6, h7, h8⟩ := h
  obtain ⟨t1, t2, t3, t4, t5, t6, t7⟩ := train_proj M xs
  obtain ⟨a5, a6, a7⟩ := internAll_symtab xs M h5 h6 h7
  have hpre : ∀ y ∈ M.prePadding, y = "" := by
    intro y hy
    rw [h3] at hy
    exact List.eq_of_mem_replicate hy
  have hpost : ∀ y ∈ M.postPadding, y = "" := by
    intro y hy
    rw [h4] at hy
    simpa using hy
  refine ⟨?_, ?_, ?_, ?_, ?_, ?_, ?_, ?_⟩
  · rw [t1]
    exact h1
  · rw [t2]
    exact h2
  · rw [t3, t1, h3]
  · rw [t4]
    exact h4
  · rw [t5]
    exact a5
  · rw [t5]
    exact a6
  · rw [t6, t5]
    exact a7
  · rw [train_counts]
    exact wfCounts_foldl (trainPairs M xs) M.counts
      (trainPairs_snd_ne_none M xs h5 h6 h7 hpre hpost) h8

/-! ## Structure of the rebuilt probability index (claim C1) -/

/-- The mass `updateProbabilities` accumulates over a list of enumerated
(key, count) pairs: the sum of `count / total`. -/
def wsum (total : Nat) (a : List (Cell × Nat)) : ℚ :=
  (a.map (fun p => (p.2 : ℚ) / (total : ℚ))).sum

theorem wsum_cons (total : Nat) (p : Cell × Nat) (t : List (Cell × Nat)) :
    wsum total (p :: t) = (p.2 : ℚ) / (total : ℚ) + wsum total t := by
  simp [wsum]

theorem cumProbs_append (s : Nat) (b : List (Cell × Nat)) :
    ∀ (a : List (Cell × Nat)) (u : ℚ),
    cumProbs s u (a ++ b) = cumProbs s u a ++ cumProbs s (u + wsum s a) b := by
  intro a
  induction a with
  | nil =>
      intro u
      simp [cumProbs, wsum]
  | cons p t ih =>
      intro u
      simp only [List.cons_append, List.append_eq, cumProbs, wsum_cons, ih, add_assoc]

theorem cumProbs_map_snd (s : Nat) :
    ∀ (a : List (Cell × Nat)) (u : ℚ),
    (cumProbs s u a).map (fun p => p.2) = a.map (fun p => p.1) := by
  intro a
  induction a with
  | nil =>
      intro u
      rfl
  | cons p t ih =>
      intro u
      simp only [cumProbs, List.map_cons, ih]

theorem cumProbs_getLast (s : Nat) :
    ∀ (a : List (Cell × Nat)) (u : ℚ), a ≠ [] →
    ∃ q, (cumProbs s u a).getLast? = some q ∧ q.1 = u + wsum s a := by
  intro a
  induction a with
  | nil =>
      intro u h
      exact absurd rfl h
  | cons p t ih =>
      intro u _
      cases t with
      | nil =>
          refine ⟨(u + (p.2 : ℚ) / (s : ℚ), p.1), rfl, ?_⟩
          simp [wsum_cons, wsum]
      | cons p' t' =>
          obtain ⟨q, hq, hq1⟩ := ih (u + (p.2 : ℚ) / (s : ℚ)) (by simp)
          refine ⟨q, ?_, ?_⟩
          · show ((u + (p.2 : ℚ) / (s : ℚ), p.1) ::
              cumProbs s (u + (p.2 : ℚ) / (s : ℚ)) (p' :: t')).getLast? = some q
            have hshape : cumProbs s (u + (p.2 : ℚ) / (s : ℚ)) (p' :: t')
                = (u + (p.2 : ℚ) / (s : ℚ) + (p'.2 : ℚ) / (s : ℚ), p'.1) ::
                  cumProbs s (u + (p.2 : ℚ) / (s : ℚ) + (p'.2 : ℚ) / (s : ℚ)) t' := rfl
            rw [hshape, List.getLast?_cons_cons, ← hshape]
            exact hq
          · rw [hq1]
            simp only [wsum_cons]
            ring

theorem chain'_cumProbs (s : Nat) (hs : 0 < s) :
    ∀ (a : List (Cell × Nat)), (∀ p ∈ a, 1 ≤ p.2) →
    ∀ u, List.Chain' (fun x y => x.1 < y.1) (cumProbs s u a) := by
  intro a
  induction a with
  | nil =>
      intro _ u
      simp [cumProbs]
  | cons p t ih =>
      intro ha u
      show List.Chain' _ ((u + (p.2 : ℚ) / (s : ℚ), p.1) ::
        cumProbs s (u + (p.2 : ℚ) / (s : ℚ)) t)
      rw [List.chain'_cons']
      refine ⟨?_, ih (fun q hq => ha q (List.mem_cons_of_mem _ hq)) _⟩
      intro y hy
      cases t with
      | nil => simp [cumProbs] at hy
      | cons p' t' =>
          have hy0 : (u + (p.2 : ℚ) / (s : ℚ) + (p'.2 : ℚ) / (s : ℚ), p'.1) = y := by
            simpa [cumProbs] using hy
          rw [← hy0]
          have h1 : (1 : ℚ) ≤ (p'.2 : ℚ) := by
            exact_mod_cast ha p' (List.mem_cons_of_mem _ (List.mem_cons_self _ _))
          have h2 : (0 : ℚ) < (s : ℚ) := by exact_mod_cast hs
          have : (0 : ℚ) < (p'.2 : ℚ) / (s : ℚ) := div_pos (by linarith) h2
          show u + (p.2 : ℚ) / (s : ℚ) < u + (p.2 : ℚ) / (s : ℚ) + (p'.2 : ℚ) / (s : ℚ)
          linarith

theorem wsum_eq_sum_div (s : Nat) :
    ∀ (a : List (Cell × Nat)),
    wsum s a = (((a.map (fun p => p.2)).sum : Nat) : ℚ) / (s : ℚ) := by
  intro a
  induction a with
  | nil => simp [wsum]
  | cons p t ih =>
      rw [wsum_cons, ih, List.map_cons, List.sum_cons, Nat.cast_add, div_add_div_same]

theorem filterMap_num_snd (l : List (Option Nat × Nat)) (h : ∀ p ∈ l, p.1 ≠ none) :
    ((l.filterMap (fun p =>
        match p.1 with
        | some n => some (n, p.2)
        | none => none)).map (fun p => p.2)) = l.map (fun p => p.2) := by
  induction l with
  | nil => rfl
  | cons p t ih =>
      cases hp : p.1 with
      | none => exact absurd hp (h p (List.mem_cons_self _ _))
      | some n =>
          simp only [List.filterMap_cons, hp, List.map_cons]
          rw [ih (fun q hq => h q (List.mem_cons_of_mem _ hq))]

theorem numEntries_mem (e : ChainEntry) (q : Nat × Nat) (hq : q ∈ numEntries e) :
    (some q.1, q.2) ∈ e.entries := by
  simp only [numEntries, List.mem_filterMap] at hq
  obtain ⟨a, ha, hfa⟩ := hq
  cases ho : a.1 with
  | none =>
      rw [ho] at hfa
      simp at hfa
  | some n =>
      rw [ho] at hfa
      simp only [Option.some.injEq] at hfa
      have : q.1 = n ∧ q.2 = a.2 := by
        rw [← hfa]
        exact ⟨rfl, rfl⟩
      rw [this.1, this.2, ← ho]
      exact ha

theorem undefEntries_eq_nil (e : ChainEntry) (h : ∀ p ∈ e.entries, p.1 ≠ none) :
    undefEntries e = [] := by
  rw [undefEntries, List.filterMap_eq_nil]
  intro p hp
  cases hh : p.1 with
  | some n => simp [hh]
  | none => exact absurd hh (h p hp)

/-- Decomposition of the cumulative list for a well-formed counter object:
an initial segment of genuine suffix entries whose last cumulative mass is
exactly 1, followed by the spurious `("_sum" ↦ 2)` entry contributed by the
bookkeeping field; the whole list is strictly increasing. -/
theorem buildProbs_decomp (e : ChainEntry) (he : WfEntry e) :
    ∃ gen, buildProbs e = gen ++ [((2 : ℚ), Cell.sumKey)] ∧
      (∀ q ∈ gen, ∃ n, q.2 = Cell.idx n) ∧
      List.Chain' (fun a b => a.1 < b.1) (buildProbs e) ∧
      ∃ q, gen.getLast? = some q ∧ q.1 = 1 := by
  obtain ⟨hne, hkeys, hsum⟩ := he
  have hkeys' : ∀ p ∈ e.entries, p.1 ≠ none := fun p hp => (hkeys p hp).1
  have hcnt : ∀ p ∈ e.entries, 1 ≤ p.2 := fun p hp => (hkeys p hp).2
  have hs1 : 1 ≤ e._sum := by
    cases hent : e.entries with
    | nil => exact absurd hent hne
    | cons q t =>
        have h1 : 1 ≤ q.2 := hcnt q (by rw [hent]; exact List.mem_cons_self _ _)
        have : e._sum = q.2 + (t.map (fun p => p.2)).sum := by
          rw [hsum, hent, List.map_cons, List.sum_cons]
        omega
  have hscast : ((e._sum : ℚ)) ≠ 0 := by
    exact_mod_cast (by omega : e._sum ≠ 0)
  have hperm := List.perm_insertionSort
    (fun a b : Nat × Nat => a.1 ≤ b.1) (numEntries e)
  set sorted := (numEntries e).insertionSort (fun a b => a.1 ≤ b.1) with hsorted
  set A := sorted.map (fun p => (Cell.idx p.1, p.2)) with hA
  have hA_snd : A.map (fun p => p.2) = sorted.map (fun p => p.2) := by
    rw [hA, List.map_map]
    rfl
  have hsnd_eq : (numEntries e).map (fun p => p.2) = e.entries.map (fun p => p.2) :=
    filterMap_num_snd e.entries hkeys'
  have hsum_sorted : (sorted.map (fun p => p.2)).sum = e._sum := by
    rw [(hperm.map (fun p => p.2)).sum_eq, hsnd_eq, ← hsum]
  have hwsumA : wsum e._sum A = 1 := by
    rw [wsum_eq_sum_div, hA_snd, hsum_sorted, div_self hscast]
  have henum : enumEntry e = A ++ [(Cell.sumKey, e._sum)] := by
    rw [enumEntry, undefEntries_eq_nil e hkeys', List.append_nil]
  have hbuild : buildProbs e
      = cumProbs e._sum 0 A ++ [((2 : ℚ), Cell.sumKey)] := by
    rw [buildProbs, henum, cumProbs_append, hwsumA]
    have : cumProbs e._sum (0 + 1) [(Cell.sumKey, e._sum)]
        = [((0 : ℚ) + 1 + (e._sum : ℚ) / (e._sum : ℚ), Cell.sumKey)] := rfl
    rw [this, div_self hscast]
    norm_num
  refine ⟨cumProbs e._sum 0 A, hbuild, ?_, ?_, ?_⟩
  · intro q hq
    have : q.2 ∈ (cumProbs e._sum 0 A).map (fun p => p.2) := List.mem_map_of_mem _ hq
    rw [cumProbs_map_snd] at this
    simp only [hA, List.map_map, List.mem_map] at this
    obtain ⟨p, _, hp⟩ := this
    exact ⟨p.1, hp.symm⟩
  · rw [buildProbs]
    apply chain'_cumProbs e._sum (by omega)
    intro p hp
    rw [henum] at hp
    rcases List.mem_append.mp hp with h | h
    · have : p.2 ∈ A.map (fun p => p.2) := List.mem_map_of_mem _ h
      rw [hA_snd] at this
      rcases List.mem_map.mp this with ⟨q, hq, hq2⟩
      have hqm : q ∈ numEntries e := hperm.mem_iff.mp hq
      have := hcnt _ (numEntries_mem e q hqm)
      omega
    · have : p = (Cell.sumKey, e._sum) := by simpa using h
      rw [this]
      exact hs1
  · have hAne : A ≠ [] := by
      intro hAnil
      have hsorted_nil : sorted = [] := by
        rw [hA] at hAnil
        exact List.map_eq_nil.mp hAnil
      have hnum_nil : numEntries e = [] :=
        List.Perm.eq_nil (hsorted_nil ▸ hperm).symm
      have h2 : e.entries.map (fun p => p.2) = [] := by
        rw [← hsnd_eq, hnum_nil]
        rfl
      exact hne (List.map_eq_nil.mp h2)
    obtain ⟨q, hq, hq1⟩ := cumProbs_getLast e._sum A 0 hAne
    refine ⟨q, hq, ?_⟩
    rw [hq1, hwsumA]
    norm_num

/-! ## Concrete models used as test vectors -/

/-- A depth-1 model trained once on the one-symbol sequence `["a"]`. -/
def modelA : Markov := train (markovNewNat 1) ["a"]

/-- A depth-2 model trained once on `["x", "y", "z"]` (the spec's concrete
generation scenario). -/
def modelXYZ : Markov := train (markovNewNat 2) ["x", "y", "z"]

/-! ## Claim C1 -/

/-- C1 (counterexample): the claim fails on the code as stated.  For the
depth-1 model trained on `["a"]`, the rebuilt cumulative list for prefix
`"0"` is `[(1, "1"), (2, "_sum")]`: the `for..in` loop of
`updateProbabilities` also visits the `_sum` bookkeeping property, so the
list pairs the cumulative mass 2 with the reserved `_sum` field and its
final cumulative mass is 2, not 1 ± 1e-9. -/
theorem C1_counterexample : ¬ C1Prop modelA := by
  intro h
  have hmem : (("0", (⟨1, [(some 1, 1)]⟩ : ChainEntry))) ∈ modelA.counts := by decide
  obtain ⟨l, hl, hkeys, _, _⟩ := h _ hmem
  have hconc : getAssoc ((updateProbabilities modelA).probabilities.getD []) "0"
      = some [((1 : ℚ), Cell.idx 1), ((2 : ℚ), Cell.sumKey)] := by
    with_unfolding_all decide
  rw [hconc] at hl
  have hl' : [((1 : ℚ), Cell.idx 1), ((2 : ℚ), Cell.sumKey)] = l := Option.some.inj hl
  exact hkeys ((2 : ℚ), Cell.sumKey) (by rw [← hl']; with_unfolding_all decide) rfl

/-- C1 (amended): after a rebuild, the cumulative list of every prefix
present in the Chain Counter consists of the genuine suffix entries —
strictly increasing, with the last genuine cumulative mass exactly 1 —
followed by one final entry that pairs cumulative mass 2 with the reserved
`_sum` bookkeeping field. -/
theorem C1_amended_holds (M : Markov) (h : Wf M) :
    ∀ p ∈ M.counts, ∃ gen l,
      getAssoc ((updateProbabilities M).probabilities.getD []) p.1 = some l ∧
      l = gen ++ [((2 : ℚ), Cell.sumKey)] ∧
      (∀ q ∈ gen, ∃ n, q.2 = Cell.idx n) ∧
      List.Chain' (fun a b => a.1 < b.1) l ∧
      ∃ q, gen.getLast? = some q ∧ q.1 = 1 := by
  intro p hp
  obtain ⟨e, he⟩ := mem_getAssoc_isSome M.counts p hp
  have hwfe : WfEntry e := h.2.2.2.2.2.2.2 (p.1, e) (getAssoc_mem _ _ _ he)
  have hprobs : getAssoc ((updateProbabilities M).probabilities.getD []) p.1
      = some (buildProbs e) := by
    simp only [updateProbabilities, Option.getD_some]
    rw [getAssoc_map_value buildProbs M.counts p.1, he]
    rfl
  obtain ⟨gen, hg1, hg2, hg3, hg4⟩ := buildProbs_decomp e hwfe
  exact ⟨gen, buildProbs e, hprobs, hg1, hg2, hg3, hg4⟩

/-- Witness for `C1_amended_holds` at the concrete trained model `modelA`. -/
theorem C1_amended_witness :
    Wf modelA ∧
    (∀ p ∈ modelA.counts, ∃ gen l,
      getAssoc ((updateProbabilities modelA).probabilities.getD []) p.1 = some l ∧
      l = gen ++ [((2 : ℚ), Cell.sumKey)] ∧
      (∀ q ∈ gen, ∃ n, q.2 = Cell.idx n) ∧
      List.Chain' (fun a b => a.1 < b.1) l ∧
      ∃ q, gen.getLast? = some q ∧ q.1 = 1) :=
  ⟨by decide, C1_amended_holds modelA (by decide)⟩

/-! ## Claim C8 (constructor) -/

/-- C8 (counterexample): constructing with depth 0 is *not* rejected — the
`depth || 1` coercion silently produces a usable depth-1 model. -/
theorem C8_counterexample :
    markovNew 0 = some (markovNewNat 1) ∧ markovNew 0 ≠ none :=
  ⟨rfl, by decide⟩

/-- C8 (amended): a negative depth fails at construction (`Array(depth)`
throws a RangeError), depth 0 — like an omitted argument — is silently
coerced to 1, and any positive depth constructs a model with that depth. -/
theorem C8_amended_holds (d : Int) :
    (d < 0 → markovNew d = none) ∧
    markovNew 0 = some (markovNewNat 1) ∧
    (0 < d → markovNew d = some (markovNewNat d.toNat)) := by
  refine ⟨?_, rfl, ?_⟩
  · intro hd
    have h0 : ¬(d = 0) := by omega
    simp [markovNew, h0, hd]
  · intro hd
    have h0 : ¬(d = 0) := by omega
    have h1 : ¬(d < 0) := by omega
    simp [markovNew, h0, h1]

/-- Witness for `C8_amended_holds` at the concrete depths −1 and 3. -/
theorem C8_amended_witness :
    markovNew (-1) = none ∧ markovNew 3 = some (markovNewNat 3) :=
  ⟨(C8_amended_holds (-1)).1 (by decide), (C8_amended_holds 3).2.2 (by decide)⟩

/-! ## Claim C10 (score frame) -/

/-- C10: a `score` call leaves every model component except the `_score` and
`_scoreFactor` scratch accumulators unchanged — in particular the
Probability Index cache, present or absent, is untouched. -/
theorem C10_frame (M : Markov) (xs : List String) :
    (score M xs).1.depth = M.depth ∧ (score M xs).1.counts = M.counts ∧
    (score M xs).1.symbols = M.symbols ∧ (score M xs).1.separator = M.separator ∧
    (score M xs).1.symbolMap = M.symbolMap ∧
    (score M xs).1.prePadding = M.prePadding ∧
    (score M xs).1.postPadding = M.postPadding ∧
    (score M xs).1.probabilities = M.probabilities ∧
    (score M xs).1._score = some (scoreAcc M xs) ∧
    (score M xs).1._scoreFactor = some ((xs.length : ℚ)) :=
  ⟨rfl, rfl, rfl, rfl, rfl, rfl, rfl, rfl, rfl, rfl⟩

/-! ## Claims C9 and C3 (score values) -/

theorem scoreTerm_nonneg (counts : Counts) (p : String × Option Nat) :
    0 ≤ scoreTerm counts p := by
  unfold scoreTerm
  split
  · exact le_rfl
  · split
    · exact le_rfl
    · split
      · exact le_rfl
      · positivity

theorem scoreAcc_nonneg (M : Markov) (xs : List String) : 0 ≤ scoreAcc M xs := by
  apply List.sum_nonneg
  intro x hx
  rcases List.mem_map.mp hx with ⟨p, _, rfl⟩
  exact scoreTerm_nonneg _ _

/-- C9 (counterexample): scoring the empty sequence on a trained model does
not return a fixed numeric result such as 0 — the `_score / _scoreFactor`
division is 0/0 and yields NaN. -/
theorem C9_counterexample :
    (score modelA []).2 = JsNum.nan ∧ JsNum.isNumB (score modelA []).2 = false := by
  constructor
  · with_unfolding_all decide
  · with_unfolding_all decide

/-- C9 (amended): scoring the empty sequence never raises an exception, but
instead of a fixed numeric result the zero-length division propagates: the
result is NaN (when no mass was accumulated) or +Infinity. -/
theorem C9_amended_holds (M : Markov) :
    (score M []).2 = JsNum.nan ∨ (score M []).2 = JsNum.inf := by
  have h := scoreAcc_nonneg M []
  by_cases ha : scoreAcc M [] = 0
  · left
    simp [score, jsDiv, ha]
  · right
    have hpos : 0 < scoreAcc M [] := lt_of_le_of_ne h (Ne.symm ha)
    simp [score, jsDiv, ha, hpos]

theorem scoreTerm_le_one (counts : Counts) (hw : ∀ p ∈ counts, WfEntry p.2)
    (p : String × Option Nat) : scoreTerm counts p ≤ 1 := by
  unfold scoreTerm
  split
  · exact zero_le_one
  next e hA =>
    split
    · exact zero_le_one
    next c hB =>
      split
      · exact zero_le_one
      next hc =>
        have he : WfEntry e := hw (p.1, e) (getAssoc_mem _ _ _ hA)
        have hmem : (p.2, c) ∈ e.entries := getAssoc_mem _ _ _ hB
        have hc1 : 1 ≤ c := (he.2.1 _ hmem).2
        have hle : c ≤ e._sum := by
          rw [he.2.2]
          exact List.single_le_sum (fun x _ => Nat.zero_le x) c
            (List.mem_map_of_mem _ hmem)
        have hspos : (0 : ℚ) < (e._sum : ℚ) := by
          exact_mod_cast (by omega : 0 < e._sum)
        rw [div_le_one hspos]
        exact_mod_cast hle

/-- The number of sliding windows `score` (and `train`) visits: one per
symbol of the original input, plus one for the closing boundary. -/
theorem windowPairs_length (M : Markov) (xs : List String)
    (h3 : M.prePadding = List.replicate M.depth "") (h4 : M.postPadding = [""]) :
    (windowPairs M.depth M.separator (indexedInput M xs)).length = xs.length + 1 := by
  have hlen : (indexedInput M xs).length = M.depth + xs.length + 1 := by
    simp [indexedInput, padInput, h3, h4]
    omega
  simp [windowPairs, hlen]
  omega

/-- C3 (counterexample): for the depth-1 model trained on `["a"]`, scoring
`["a"]` returns 2, outside `[0, 1]` — both boundary windows score a full
1 each and the sum is divided by the unpadded length 1. -/
theorem C3_counterexample :
    (score modelA ["a"]).2 = JsNum.num 2 ∧ ¬((2 : ℚ) ≤ 1) := by
  constructor
  · with_unfolding_all decide
  · norm_num

/-- C3 (amended): for a well-formed model and non-empty input of length n,
`score` returns a finite value in `[0, (n+1)/n]` (each of the n+1 windows
contributes at most 1, and the sum is divided by n — so the value can
exceed 1, up to 2 for n = 1). -/
theorem C3_amended_holds (M : Markov) (h : Wf M) (xs : List String) (hne : xs ≠ []) :
    ∃ v : ℚ, (score M xs).2 = JsNum.num v ∧ 0 ≤ v ∧
      v ≤ ((xs.length : ℚ) + 1) / (xs.length : ℚ) := by
  have hlen0 : xs.length ≠ 0 := fun hl => hne (List.length_eq_zero.mp hl)
  have hlenq : ((xs.length : ℚ)) ≠ 0 := by exact_mod_cast hlen0
  have hlenpos : (0 : ℚ) < (xs.length : ℚ) := by
    exact_mod_cast Nat.pos_of_ne_zero hlen0
  refine ⟨scoreAcc M xs / (xs.length : ℚ), ?_, ?_, ?_⟩
  · simp [score, jsDiv, hlenq]
  · exact div_nonneg (scoreAcc_nonneg M xs) (le_of_lt hlenpos)
  · have hbound : scoreAcc M xs ≤ (xs.length : ℚ) + 1 := by
      have hterm : ∀ x ∈ (windowPairs M.depth M.separator (indexedInput M xs)).map
          (scoreTerm M.counts), x ≤ 1 := by
        intro x hx
        rcases List.mem_map.mp hx with ⟨p, _, rfl⟩
        exact scoreTerm_le_one M.counts h.2.2.2.2.2.2.2 p
      have := List.sum_le_card_nsmul _ 1 hterm
      rw [List.length_map, windowPairs_length M xs h.2.2.1 h.2.2.2.1] at this
      calc scoreAcc M xs ≤ (xs.length + 1) • (1 : ℚ) := this
        _ = (xs.length : ℚ) + 1 := by
            rw [nsmul_eq_mul, mul_one]
            push_cast
            ring
    rw [div_le_div_right hlenpos]
    exact hbound

/-- Witness for `C3_amended_holds` at the concrete model `modelA` and
input `["a"]`. -/
theorem C3_amended_witness :
    Wf modelA ∧ (["a"] : List String) ≠ [] ∧
    (∃ v : ℚ, (score modelA ["a"]).2 = JsNum.num v ∧ 0 ≤ v ∧
      v ≤ (((["a"] : List String).length : ℚ) + 1) / ((["a"] : List String).length : ℚ)) :=
  ⟨by decide, by decide, C3_amended_holds modelA (by decide) ["a"] (by decide)⟩

/-! ## Claim C5 (serialization round trip) -/

theorem addSymbol_of_present (M : Markov) (x : String) (v : Nat)
    (h : getAssoc M.symbolMap x = some v) : addSymbol M x = M := by
  simp [addSymbol, h]

theorem foldl_addSymbol_app (l : List String) :
    ∀ (M : Markov), M.symbolMap = enumMap M.symbols → (M.symbols ++ l).Nodup →
    l.foldl addSymbol M
      = { M with symbols := M.symbols ++ l, symbolMap := enumMap (M.symbols ++ l) } := by
  induction l with
  | nil =>
      intro M h7 _
      simp only [List.foldl_nil, List.append_nil]
      rw [← h7]
  | cons x t ih =>
      intro M h7 hnd
      simp only [List.foldl_cons]
      have hx : x ∉ M.symbols := by
        rcases List.nodup_append.mp hnd with ⟨_, _, hdisj⟩
        intro hmem
        exact hdisj hmem (List.mem_cons_self _ _)
      have hA : getAssoc M.symbolMap x = none := by
        rw [h7]
        exact (getAssoc_enumMapFrom_eq_none 0 _ x).mpr hx
      have haddeq : addSymbol M x
          = { M with symbols := M.symbols ++ [x], symbolMap := enumMap (M.symbols ++ [x]) } := by
        simp only [addSymbol, hA]
        rw [setAssoc_of_absent _ _ _ hA, h7]
        rw [enumMap, enumMap, enumMapFrom_append]
        simp
      rw [haddeq]
      have hnd' : ((M.symbols ++ [x]) ++ t).Nodup := by
        rw [List.append_assoc, List.singleton_append]
        exact hnd
      have hih := ih ({ M with symbols := M.symbols ++ [x], symbolMap := enumMap (M.symbols ++ [x]) }) rfl hnd'
      rw [hih, List.append_assoc, List.singleton_append]

/-- The round trip reproduces the model exactly, except that the probability
index is absent and the scratch accumulators are fresh. -/
theorem fromJSON_toJSON (M : Markov) (h : Wf M) :
    fromJSON (toJSON M)
      = { M with probabilities := none, _score := none, _scoreFactor := none } := by
  obtain ⟨h1, h2, h3, h4, h5, h6, h7, h8⟩ := h
  obtain ⟨rest, hrest⟩ : ∃ rest, M.symbols = "" :: rest := by
    cases hs : M.symbols with
    | nil =>
        rw [hs] at h5
        simp at h5
    | cons a t =>
        rw [hs] at h5
        simp only [List.get?_cons_zero, Option.some.injEq] at h5
        exact ⟨t, by rw [h5]⟩
  have hd0 : ¬(M.depth = 0) := by omega
  have haddnil : addSymbol (markovNewNat M.depth) "" = markovNewNat M.depth := by
    simp [addSymbol, markovNewNat, getAssoc]
  have hfold := foldl_addSymbol_app rest (markovNewNat M.depth) rfl
    (by
      show (([""] : List String) ++ rest).Nodup
      rw [List.singleton_append, ← hrest]
      exact h6)
  simp only [fromJSON, toJSON, if_neg hd0, hrest, List.foldl_cons, haddnil, hfold]
  have hsym : (markovNewNat M.depth).symbols ++ rest = M.symbols := by
    show ([""] : List String) ++ rest = M.symbols
    rw [List.singleton_append, ← hrest]
  rw [hsym, ← h7]
  simp only [markovNewNat]
  rw [if_neg hd0, ← h2, ← h3, ← h4, hrest]

/-- The value `score` returns only depends on the fields `CoreEq` compares
(never on the probability cache or the scratch accumulators). -/
theorem score_val_coreEq (M₁ M₂ : Markov) (h : CoreEq M₁ M₂) (xs : List String) :
    (score M₁ xs).2 = (score M₂ xs).2 := by
  obtain ⟨hd, hc, hs, hsep, hm, hpre, hpost⟩ := h
  have hacc : scoreAcc M₁ xs = scoreAcc M₂ xs := by
    unfold scoreAcc windowPairs indexedInput padInput symbolToIndex
    rw [hd, hc, hsep, hm, hpre, hpost]
  show jsDiv (scoreAcc M₁ xs) ((xs.length : ℚ)) = jsDiv (scoreAcc M₂ xs) ((xs.length : ℚ))
  rw [hacc]

theorem addSymbol_coreEq (M₁ M₂ : Markov) (h : CoreEq M₁ M₂) (x : String) :
    CoreEq (addSymbol M₁ x) (addSymbol M₂ x) := by
  obtain ⟨hd, hc, hs, hsep, hm, hpre, hpost⟩ := h
  unfold addSymbol
  rw [hm]
  cases hA : getAssoc M₂.symbolMap x with
  | some v => exact ⟨hd, hc, hs, hsep, hm, hpre, hpost⟩
  | none =>
      have hs' : M₁.symbols ++ [x] = M₂.symbols ++ [x] := by rw [hs]
      have hm' : setAssoc M₂.symbolMap x M₁.symbols.length
          = setAssoc M₂.symbolMap x M₂.symbols.length := by rw [hs]
      exact ⟨hd, hc, hs', hsep, hm', hpre, hpost⟩

theorem internAll_coreEq (xs : List String) :
    ∀ (M₁ M₂ : Markov), CoreEq M₁ M₂ → CoreEq (internAll M₁ xs) (internAll M₂ xs) := by
  induction xs with
  | nil =>
      intro M₁ M₂ h
      exact h
  | cons x t ih =>
      intro M₁ M₂ h
      exact ih _ _ (addSymbol_coreEq M₁ M₂ h x)

theorem trainPairs_coreEq (M₁ M₂ : Markov) (h : CoreEq M₁ M₂) (xs : List String) :
    trainPairs M₁ xs = trainPairs M₂ xs := by
  obtain ⟨hd, hc, hs, hsep, hm, hpre, hpost⟩ := internAll_coreEq xs M₁ M₂ h
  have hf : symbolToIndex (internAll M₁ xs) = symbolToIndex (internAll M₂ xs) := by
    funext y
    unfold symbolToIndex
    rw [hm]
  simp only [trainPairs, windowPairs, indexedInput, padInput]
  rw [hf, hd, hsep, hpre, hpost]

theorem train_coreEq (M₁ M₂ : Markov) (h : CoreEq M₁ M₂) (xs : List String) :
    CoreEq (train M₁ xs) (train M₂ xs) := by
  obtain ⟨hd, hc, hs, hsep, hm, hpre, hpost⟩ := internAll_coreEq xs M₁ M₂ h
  have hp := trainPairs_coreEq M₁ M₂ h xs
  have hc12 : M₁.counts = M₂.counts := h.2.1
  refine ⟨?_, ?_, ?_, ?_, ?_, ?_, ?_⟩
  · rw [(train_proj M₁ xs).1, (train_proj M₂ xs).1]
    exact h.1
  · rw [train_counts, train_counts, hp, hc12]
  · rw [(train_proj M₁ xs).2.2.2.2.1, (train_proj M₂ xs).2.2.2.2.1]
    exact hs
  · rw [(train_proj M₁ xs).2.1, (train_proj M₂ xs).2.1]
    exact h.2.2.2.1
  · rw [(train_proj M₁ xs).2.2.2.2.2.1, (train_proj M₂ xs).2.2.2.2.2.1]
    exact hm
  · rw [(train_proj M₁ xs).2.2.1, (train_proj M₂ xs).2.2.1]
    exact h.2.2.2.2.2.1
  · rw [(train_proj M₁ xs).2.2.2.1, (train_proj M₂ xs).2.2.2.1]
    exact h.2.2.2.2.2.2

/-- C5: deserializing a serialized model reproduces the model — same depth,
symbol table and counts, probability index absent — and both `score` and
`train`-then-`score` return the same value as on the original model for
every input sequence. -/
theorem C5_roundtrip (M : Markov) (h : Wf M) :
    fromJSON (toJSON M)
      = { M with probabilities := none, _score := none, _scoreFactor := none } ∧
    (∀ xs, (score (fromJSON (toJSON M)) xs).2 = (score M xs).2) ∧
    (∀ ys xs, (score (train (fromJSON (toJSON M)) ys) xs).2
      = (score (train M ys) xs).2) := by
  have hRT := fromJSON_toJSON M h
  have hcore : CoreEq (fromJSON (toJSON M)) M := by
    rw [hRT]
    exact ⟨rfl, rfl, rfl, rfl, rfl, rfl, rfl⟩
  exact ⟨hRT, fun xs => score_val_coreEq _ _ hcore xs,
    fun ys xs => score_val_coreEq _ _ (train_coreEq _ _ hcore ys) xs⟩

/-- Witness for `C5_roundtrip` at the concrete trained model `modelA`. -/
theorem C5_roundtrip_witness :
    Wf modelA ∧
    (fromJSON (toJSON modelA)
        = { modelA with probabilities := none, _score := none, _scoreFactor := none } ∧
      (∀ xs, (score (fromJSON (toJSON modelA)) xs).2 = (score modelA xs).2) ∧
      (∀ ys xs, (score (train (fromJSON (toJSON modelA)) ys) xs).2
        = (score (train modelA ys) xs).2)) :=
  ⟨by decide, C5_roundtrip modelA (by decide)⟩

/-! ## Claim C7 (boundary symbol invariant) -/

/-- `generate` only replaces the probability cache. -/
theorem generate_fst (M : Markov) (rands : Nat → ℚ) (minL maxL : Nat) :
    (generate M rands minL maxL).1
      = if M.probabilities = none then updateProbabilities M else M := by
  unfold generate genStart
  split
  · rfl
  · rfl

/-- Every reachable model is well formed. -/
theorem reach_wf (M : Markov) (h : Reachable M) : Wf M := by
  induction h with
  | construct d M hM =>
      unfold markovNew at hM
      split at hM
      · have hM2 : (some (markovNewNat (Int.toNat 1)) : Option Markov) = some M := hM
        rw [← Option.some.inj hM2]
        exact wf_markovNewNat (Int.toNat 1) (by decide)
      next hd0 =>
        have hM2 : (if d < 0 then none else some (markovNewNat d.toNat)) = some M := hM
        split at hM2
        · cases hM2
        next hneg =>
          have hM' := Option.some.inj hM2
          rw [← hM']
          apply wf_markovNewNat
          omega
  | train M xs _ ih => exact wf_train M xs ih
  | score M xs _ ih => exact ih
  | generate M rands minL maxL _ ih =>
      rw [generate_fst]
      by_cases hp : M.probabilities = none
      · simp only [hp, if_true, eq_self_iff_true]
        exact ih
      · simp only [hp, if_false]
        exact ih
  | roundtrip M _ ih =>
      rw [fromJSON_toJSON M ih]
      exact ih

/-- C7: in every model state reachable through the public interface, index 0
resolves to the boundary (empty) symbol and the boundary symbol maps to
index 0. -/
theorem C7_boundary (M : Markov) (h : Reachable M) :
    M.symbols.get? 0 = some "" ∧ getAssoc M.symbolMap "" = some 0 := by
  have hw := reach_wf M h
  refine ⟨hw.2.2.2.2.1, ?_⟩
  rw [hw.2.2.2.2.2.2.1]
  exact getAssoc_enumMapFrom_head 0 _ _ hw.2.2.2.2.1

/-- Witness for `C7_boundary` at the concrete reachable model `modelA`. -/
theorem C7_boundary_witness :
    modelA.symbols.get? 0 = some "" ∧ getAssoc modelA.symbolMap "" = some 0 :=
  C7_boundary modelA
    (Reachable.train (markovNewNat 1) ["a"] (Reachable.construct 1 (markovNewNat 1) rfl))

/-! ## The generation loop (claims C2 and C6) -/

/-- When the first cumulative entry already covers the draw (mass 1 at the
head, as for every single-suffix prefix), `genSuffix` deterministically
returns that entry's key for any draw ≤ 1. -/
theorem genSuffix_first (probs : ProbMap) (k : String) (l : List (ℚ × Cell))
    (c : Cell) (r : ℚ) (hA : getAssoc probs k = some (((1 : ℚ), c) :: l))
    (hr : r ≤ 1) : genSuffix probs k r = some c := by
  unfold genSuffix
  rw [hA]
  show Option.map (fun e => e.2)
    (List.find? (fun e => decide (r ≤ e.1)) (((1 : ℚ), c) :: l)) = some c
  rw [@List.find?_cons_of_pos (ℚ × Cell) (fun e => decide (r ≤ e.1)) ((1 : ℚ), c) l
    (decide_eq_true hr)]
  rfl

/-- One push iteration of the while loop, fully determined by its branch
conditions and the sampled suffix. -/
theorem genLoop_step_push (probs : ProbMap) (symbols : List String) (sep : String)
    (rands : Nat → ℚ) (minL maxL fuel : Nat) (string : List (Option String))
    (pfx : List Cell) (sfx : Cell) (zC k : Nat)
    (hcond : (string.length < maxL ∧ ¬cellIsZero sfx = true) ∨ string.length < minL)
    (hnz : ¬cellIsZero sfx = true) (sfx' : Cell)
    (hs : genSuffix probs (joinCells sep ((pfx ++ [sfx]).drop 1)) (rands k) = some sfx') :
    genLoop probs symbols sep rands minL maxL (fuel + 1) string pfx sfx zC k
      = genLoop probs symbols sep rands minL maxL fuel
          (string ++ [cellSymbol symbols sfx]) ((pfx ++ [sfx]).drop 1) sfx' zC (k + 1) := by
  simp only [genLoop]
  rw [if_pos hcond, if_pos hnz, hs]

/-- Loop exit: the while condition fails and the output is returned. -/
theorem genLoop_exit (probs : ProbMap) (symbols : List String) (sep : String)
    (rands : Nat → ℚ) (minL maxL fuel : Nat) (string : List (Option String))
    (pfx : List Cell) (sfx : Cell) (zC k : Nat)
    (hcond : ¬((string.length < maxL ∧ ¬cellIsZero sfx = true) ∨ string.length < minL)) :
    genLoop probs symbols sep rands minL maxL (fuel + 1) string pfx sfx zC k
      = GenResult.ok string zC := by
  simp only [genLoop]
  rw [if_neg hcond]

/-- The loop never exhausts a step budget that strictly exceeds its
decreasing measure — i.e. the JS while loop terminates. -/
theorem genLoop_no_outOfFuel (probs : ProbMap) (symbols : List String) (sep : String)
    (rands : Nat → ℚ) (minL maxL : Nat) :
    ∀ (fuel : Nat) (string : List (Option String)) (pfx : List Cell) (sfx : Cell)
      (zC k : Nat), (max minL maxL - string.length) + (16 - zC) < fuel →
      genLoop probs symbols sep rands minL maxL fuel string pfx sfx zC k
        ≠ GenResult.outOfFuel := by
  intro fuel
  induction fuel with
  | zero =>
      intro string pfx sfx zC k hf
      omega
  | succ fuel ih =>
      intro string pfx sfx zC k hf
      simp only [genLoop]
      by_cases hcond : (string.length < maxL ∧ ¬cellIsZero sfx = true) ∨
          string.length < minL
      · rw [if_pos hcond]
        by_cases hz : cellIsZero sfx = true
        · rw [if_neg (fun hn => hn hz)]
          by_cases h15 : 15 < zC + 1
          · rw [if_pos h15]
            simp
          · rw [if_neg h15]
            cases hgs : genSuffix probs (joinCells sep pfx) (rands k) with
            | none => simp
            | some sfx' =>
                apply ih
                omega
        · rw [if_pos hz]
          cases hgs : genSuffix probs (joinCells sep ((pfx ++ [sfx]).drop 1)) (rands k) with
          | none => simp
          | some sfx' =>
              apply ih
              have hlt : string.length < max minL maxL := by
                rcases hcond with ⟨h1, _⟩ | h1 <;> omega
              simp only [List.length_append, List.length_cons, List.length_nil]
              omega
      · rw [if_neg hcond]
        simp

/-- The loop invariant behind C6: whatever the loop returns is never longer
than `maxLength`, and it is shorter than `minLength` only if the final
boundary-draw counter exceeded 15. -/
theorem genLoop_length (probs : ProbMap) (symbols : List String) (sep : String)
    (rands : Nat → ℚ) (minL maxL : Nat) (hml : minL ≤ maxL) :
    ∀ (fuel : Nat) (string : List (Option String)) (pfx : List Cell) (sfx : Cell)
      (zC k : Nat), string.length ≤ maxL →
      ∀ l z', genLoop probs symbols sep rands minL maxL fuel string pfx sfx zC k
          = GenResult.ok l z' →
        l.length ≤ maxL ∧ (l.length < minL → 15 < z') := by
  intro fuel
  induction fuel with
  | zero =>
      intro string pfx sfx zC k hlen l z' hres
      simp [genLoop] at hres
  | succ fuel ih =>
      intro string pfx sfx zC k hlen l z' hres
      simp only [genLoop] at hres
      by_cases hcond : (string.length < maxL ∧ ¬cellIsZero sfx = true) ∨
          string.length < minL
      · rw [if_pos hcond] at hres
        by_cases hz : cellIsZero sfx = true
        · rw [if_neg (fun hn => hn hz)] at hres
          by_cases h15 : 15 < zC + 1
          · rw [if_pos h15] at hres
            cases hres
            exact ⟨hlen, fun _ => h15⟩
          · rw [if_neg h15] at hres
            cases hgs : genSuffix probs (joinCells sep pfx) (rands k) with
            | none =>
                rw [hgs] at hres
                cases hres
            | some sfx' =>
                rw [hgs] at hres
                exact ih string pfx sfx' (zC + 1) (k + 1) hlen l z' hres
        · rw [if_pos hz] at hres
          cases hgs : genSuffix probs (joinCells sep ((pfx ++ [sfx]).drop 1)) (rands k) with
          | none =>
              rw [hgs] at hres
              cases hres
          | some sfx' =>
              rw [hgs] at hres
              have hlen' : (string ++ [cellSymbol symbols sfx]).length ≤ maxL := by
                have hlt : string.length < maxL := by
                  rcases hcond with ⟨h1, _⟩ | h1 <;> omega
                simp only [List.length_append, List.length_cons, List.length_nil]
                omega
              exact ih _ _ sfx' zC (k + 1) hlen' l z' hres
      · rw [if_neg hcond] at hres
        cases hres
        push_neg at hcond
        exact ⟨hlen, fun hminlen => absurd hminlen (by omega)⟩

/-- C6: whenever `generate(minLength, maxLength)` (with `minLength ≤
maxLength`) returns a sequence, its length is at most `maxLength`, and it is
shorter than `minLength` only if the boundary symbol was drawn more than 15
times. -/
theorem C6_length (M : Markov) (rands : Nat → ℚ) (minL maxL : Nat) (hml : minL ≤ maxL)
    (l : List (Option String)) (z : Nat)
    (hres : (generate M rands minL maxL).2 = GenResult.ok l z) :
    l.length ≤ maxL ∧ (l.length < minL → 15 < z) := by
  unfold generate genStart at hres
  have hmaxeq : (if maxL = 0 then minL else maxL) = maxL := by
    by_cases h0 : maxL = 0
    · rw [if_pos h0]
      omega
    · rw [if_neg h0]
  rw [hmaxeq] at hres
  split at hres
  · exact absurd hres (by simp)
  · exact genLoop_length _ _ _ rands minL maxL hml _ [] _ _ 0 1 (Nat.zero_le _) l z hres

/-- Witness for `C6_length` at the concrete model `modelXYZ` with a
constant random stream. -/
theorem C6_length_witness :
    ([some "x", some "y", some "z"] : List (Option String)).length ≤ 10 ∧
    (([some "x", some "y", some "z"] : List (Option String)).length < 1 → 15 < 0) :=
  C6_length modelXYZ (fun _ => (1 : ℚ) / 2) 1 10 (by decide)
    [some "x", some "y", some "z"] 0 (by with_unfolding_all decide)

/-- C2 (counterexample): on an untrained depth-2 model — whose all-boundary
start state has no Probability Index entry — `generate(1, 10)` reads
`this.probabilities[pfx][0]` of an `undefined` entry and throws a TypeError
(`fault`) instead of stopping and returning the output produced so far. -/
theorem C2_counterexample :
    (generate (markovNewNat 2) (fun _ => (1 : ℚ) / 2) 1 10).2 = GenResult.fault := by
  with_unfolding_all decide

/-- C2 (amended): reaching a state absent from the Probability Index faults
(see `C2_counterexample`); but for the depth-2 model trained on
`["x", "y", "z"]` no such state is ever reached: for every random stream
drawing in [0, 1), `generate(1, 10)` terminates with the output
`["x", "y", "z"]` (length 3 ≤ 10) and never faults. -/
theorem C2_amended_holds (rands : Nat → ℚ) (h : ∀ n, 0 ≤ rands n ∧ rands n < 1) :
    (generate modelXYZ rands 1 10).2 = GenResult.ok [some "x", some "y", some "z"] 0 ∧
    ([some "x", some "y", some "z"] : List (Option String)).length ≤ 10 := by
  have hle : ∀ n, rands n ≤ 1 := fun n => le_of_lt (h n).2
  refine ⟨?_, by decide⟩
  have hif : (if modelXYZ.probabilities = none then updateProbabilities modelXYZ
      else modelXYZ) = updateProbabilities modelXYZ := if_pos rfl
  have hmax : (if (10 : Nat) = 0 then (1 : Nat) else 10) = 10 := by decide
  unfold generate
  rw [hif, hmax]
  unfold genStart
  have hg0 : genSuffix ((updateProbabilities modelXYZ).probabilities.getD [])
      (joinCells (updateProbabilities modelXYZ).separator
        (genPfx0 (updateProbabilities modelXYZ)))
      (rands 0) = some (Cell.idx 1) :=
    genSuffix_first _ _ [((2 : ℚ), Cell.sumKey)] (Cell.idx 1) (rands 0)
      (by with_unfolding_all decide) (hle 0)
  rw [hg0]
  show genLoop ((updateProbabilities modelXYZ).probabilities.getD [])
      (updateProbabilities modelXYZ).symbols (updateProbabilities modelXYZ).separator
      rands 1 10 (max 1 10 + 17) [] (genPfx0 (updateProbabilities modelXYZ))
      (Cell.idx 1) 0 1
    = GenResult.ok [some "x", some "y", some "z"] 0
  rw [show (max 1 10 + 17 : Nat) = 27 from rfl,
    show (updateProbabilities modelXYZ).symbols = ["", "x", "y", "z"] from rfl,
    show (updateProbabilities modelXYZ).separator = "," from rfl,
    show genPfx0 (updateProbabilities modelXYZ) = [Cell.idx 0, Cell.idx 0] from rfl]
  have s1 : genLoop ((updateProbabilities modelXYZ).probabilities.getD [])
      ["", "x", "y", "z"] "," rands 1 10 27 [] [Cell.idx 0, Cell.idx 0] (Cell.idx 1) 0 1
      = genLoop ((updateProbabilities modelXYZ).probabilities.getD [])
        ["", "x", "y", "z"] "," rands 1 10 26 [some "x"] [Cell.idx 0, Cell.idx 1]
        (Cell.idx 2) 0 2 :=
    genLoop_step_push _ _ _ rands 1 10 26 [] [Cell.idx 0, Cell.idx 0] (Cell.idx 1) 0 1
      (by decide) (by decide) (Cell.idx 2)
      (genSuffix_first _ _ [((2 : ℚ), Cell.sumKey)] (Cell.idx 2) (rands 1)
        (by with_unfolding_all decide) (hle 1))
  have s2 : genLoop ((updateProbabilities modelXYZ).probabilities.getD [])
      ["", "x", "y", "z"] "," rands 1 10 26 [some "x"] [Cell.idx 0, Cell.idx 1]
      (Cell.idx 2) 0 2
      = genLoop ((updateProbabilities modelXYZ).probabilities.getD [])
        ["", "x", "y", "z"] "," rands 1 10 25 [some "x", some "y"]
        [Cell.idx 1, Cell.idx 2] (Cell.idx 3) 0 3 :=
    genLoop_step_push _ _ _ rands 1 10 25 [some "x"] [Cell.idx 0, Cell.idx 1]
      (Cell.idx 2) 0 2 (by decide) (by decide) (Cell.idx 3)
      (genSuffix_first _ _ [((2 : ℚ), Cell.sumKey)] (Cell.idx 3) (rands 2)
        (by with_unfolding_all decide) (hle 2))
  have s3 : genLoop ((updateProbabilities modelXYZ).probabilities.getD [])
      ["", "x", "y", "z"] "," rands 1 10 25 [some "x", some "y"]
      [Cell.idx 1, Cell.idx 2] (Cell.idx 3) 0 3
      = genLoop ((updateProbabilities modelXYZ).probabilities.getD [])
        ["", "x", "y", "z"] "," rands 1 10 24 [some "x", some "y", some "z"]
        [Cell.idx 2, Cell.idx 3] (Cell.idx 0) 0 4 :=
    genLoop_step_push _ _ _ rands 1 10 24 [some "x", some "y"]
      [Cell.idx 1, Cell.idx 2] (Cell.idx 3) 0 3 (by decide) (by decide) (Cell.idx 0)
      (genSuffix_first _ _ [((2 : ℚ), Cell.sumKey)] (Cell.idx 0) (rands 3)
        (by with_unfolding_all decide) (hle 3))
  have s4 : genLoop ((updateProbabilities modelXYZ).probabilities.getD [])
      ["", "x", "y", "z"] "," rands 1 10 24 [some "x", some "y", some "z"]
      [Cell.idx 2, Cell.idx 3] (Cell.idx 0) 0 4
      = GenResult.ok [some "x", some "y", some "z"] 0 :=
    genLoop_exit _ _ _ rands 1 10 23 [some "x", some "y", some "z"]
      [Cell.idx 2, Cell.idx 3] (Cell.idx 0) 0 4 (by decide)
  rw [s1, s2, s3, s4]

/-- Witness for `C2_amended_holds` with the constant stream 1/2. -/
theorem C2_amended_witness :
    (generate modelXYZ (fun _ => (1 : ℚ) / 2) 1 10).2
      = GenResult.ok [some "x", some "y", some "z"] 0 ∧
    ([some "x", some "y", some "z"] : List (Option String)).length ≤ 10 :=
  C2_amended_holds (fun _ => (1 : ℚ) / 2) (fun _ => ⟨by norm_num, by norm_num⟩)

end MarkovModel
